import Mathlib

/-!
Verification of the klein-sniper market-analysis engine.

Shallow embedding of the analyzer core of the repository
(`src/analyzer/price_analysis.rs`, `src/analyzer/lifecycle.rs`,
`src/analyzer/market_indicators.rs`, plus the data model from `src/model.rs`
and `src/config.rs`), together with proofs and refutations of the spec's
claims about it.

Modelling conventions:
* Rust `f64` values are modelled by `F64 := Option ℚ`: `some q` is a finite
  double whose exact value is the rational `q`, and `none` stands for the
  non-finite results (NaN; the modelled code produces no infinities with a
  finite operand, see `fdiv`).  Finite inputs (prices, configuration values)
  are taken as exact rationals.
* `chrono::DateTime<Utc>` timestamps are modelled as integers (`ℤ`); only
  their ordering is used by the modelled code.
* Rust `HashMap` is modelled as an association list in insertion order.
  `HashMap::into_values` yields an unspecified order; every property proved
  below about map contents is order-insensitive (sums and ∀-membership).
-/

namespace KleinSniper

/-- A Rust `f64` value: `some q` a finite double of exact value `q`,
`none` a non-finite value (NaN). -/
abbrev F64 := Option ℚ

/-- Addition of `f64` values: finite + finite is exact, NaN propagates. -/
def fadd : F64 → F64 → F64
  | some x, some y => some (x + y)
  | _, _ => none

/-- Subtraction of `f64` values: NaN propagates. -/
def fsub : F64 → F64 → F64
  | some x, some y => some (x - y)
  | _, _ => none

/-- Multiplication of `f64` values: NaN propagates. -/
def fmul : F64 → F64 → F64
  | some x, some y => some (x * y)
  | _, _ => none

/-- Division of `f64` values.  `0.0 / 0.0` is NaN; a nonzero numerator over zero is
±∞, also a non-finite value, likewise mapped to `none` (in the modelled code
every division with a zero denominator has a zero numerator). -/
def fdiv : F64 → F64 → F64
  | some x, some y => if y = 0 then none else some (x / y)
  | _, _ => none

/-- Comparison `<` on `f64`: any comparison involving NaN is false. -/
def flt : F64 → F64 → Bool
  | some x, some y => decide (x < y)
  | _, _ => false

/-- Comparison `>` on `f64`: any comparison involving NaN is false. -/
def fgt : F64 → F64 → Bool
  | some x, some y => decide (y < x)
  | _, _ => false

/-- Comparison `>=` on `f64`: any comparison involving NaN is false. -/
def fge : F64 → F64 → Bool
  | some x, some y => decide (y ≤ x)
  | _, _ => false

/-- The `Offer` record from `src/model.rs`: one observed marketplace ad. -/
structure Offer where
  id : String
  title : String
  description : String
  price : ℚ
  location : String
  model : String
  link : String
  posted_at : ℤ
  fetched_at : ℤ
  user_id : Option String
  user_name : Option String
  user_url : Option String
deriving DecidableEq

/-- The `ModelStats` record from `src/model.rs`.  The Rust field `std_dev` stores the
square root of the population variance; a square root of a rational is
irrational in general, so this embedding stores the exact radicand
`var_price` (Rust `std_dev = sqrt var_price`, and `std_dev` is NaN exactly
when `var_price` is `none`).  The wall-clock field `last_updated`
(`Utc::now()`) is non-deterministic and carries no analyzed content, so it
is omitted. -/
structure ModelStats where
  model : String
  avg_price : F64
  var_price : F64
deriving DecidableEq

/-- The `ModelConfig` record from `src/config.rs` (per-product analysis thresholds). -/
structure ModelConfig where
  query : String
  category_id : String
  deviation_threshold : ℚ
  min_price_delta : ℚ
  min_price : ℚ
  max_price : ℚ
  match_keywords : List String
deriving DecidableEq

/-- Rust `AnalyzerImpl::calculate_stats` from `src/analyzer/price_analysis.rs`:
filters to strictly positive prices, then computes the arithmetic mean and
the population variance (the Rust code takes `sqrt` of the variance to store
`std_dev`; the squaring `powi(2)` is written as a self-multiplication).
There is no emptiness check in the source: with zero positive prices both
divisions are `0.0 / 0.0`. -/
def calculate_stats (offers : List Offer) : ModelStats :=
  let prices : List ℚ := (offers.map Offer.price).filter (fun p => decide (0 < p))
  let count : ℚ := prices.length
  let avg : F64 := fdiv (some prices.sum) (some count)
  let var_price : F64 :=
    fdiv ((prices.map (fun p => fmul (fsub (some p) avg) (fsub (some p) avg))).foldl
            fadd (some 0))
         (some count)
  { model := (offers.head?.map Offer.model).getD "unknown"
    avg_price := avg
    var_price := var_price }

/-- Rust `AnalyzerImpl::find_deals` from `src/analyzer/price_analysis.rs`: keeps
an offer iff its price is within `[min_price, max_price]` and it is below
the mean either by the relative threshold or by the absolute delta.  The
Rust loop pushes clones in input order, i.e. a filter. -/
def find_deals (offers : List Offer) (stats : ModelStats) (cfg : ModelConfig) :
    List Offer :=
  offers.filter (fun offer =>
    if flt (some offer.price) (some cfg.min_price) ||
       fgt (some offer.price) (some cfg.max_price) then
      false
    else
      let is_under_percent :=
        flt (some offer.price) (fmul stats.avg_price (some (1 - cfg.deviation_threshold)))
      let is_under_absolute :=
        fge (fsub stats.avg_price (some offer.price)) (some cfg.min_price_delta)
      is_under_percent || is_under_absolute)

/-- Builds a concrete `Offer` with the fields the analyzer reads; the
remaining fields are irrelevant to the analyzer and set to fixed values. -/
def mkOffer (i : String) (price : ℚ) (fetched_at : ℤ) : Offer :=
  { id := i, title := "", description := "", price := price, location := ""
    model := "m", link := "", posted_at := 0, fetched_at := fetched_at
    user_id := none, user_name := none, user_url := none }

/-- The `OfferLifecycle` record: the analyzer imports it from `crate::model`; its
declaration is not present in the captured `model.rs`, so the fields are
reconstructed from the construction site in `src/analyzer/lifecycle.rs`
(`price`, `first_seen`, `last_seen`, `price_changes`). -/
structure OfferLifecycle where
  price : ℚ
  first_seen : ℤ
  last_seen : ℤ
  price_changes : ℕ
deriving DecidableEq

/-- Rust `f64::EPSILON` = 2⁻⁵², the comparison tolerance used in
`build_lifecycle_data`. -/
def f64_EPSILON : ℚ := 1 / 2 ^ 52

/-- The fresh record `or_insert_with` creates in `build_lifecycle_data`:
first and last seen at the offer's fetch time, zero price changes. -/
def initLifecycle (offer : Offer) : OfferLifecycle :=
  { price := offer.price, first_seen := offer.fetched_at
    last_seen := offer.fetched_at, price_changes := 0 }

/-- The per-offer mutation of an entry in `build_lifecycle_data` (lines
19–31 of `src/analyzer/lifecycle.rs`): bump `price_changes` and store the
new price when it moved by more than `f64::EPSILON`, then widen the
`first_seen`/`last_seen` window.  In the source this runs on the entry
right after `or_insert_with`, so it applies to fresh entries too (where it
is a no-op). -/
def updateLifecycle (entry : OfferLifecycle) (offer : Offer) : OfferLifecycle :=
  let entry :=
    if |offer.price - entry.price| > f64_EPSILON then
      { entry with price_changes := entry.price_changes + 1, price := offer.price }
    else entry
  let entry :=
    if offer.fetched_at < entry.first_seen then
      { entry with first_seen := offer.fetched_at }
    else entry
  if offer.fetched_at > entry.last_seen then
    { entry with last_seen := offer.fetched_at }
  else entry

/-- The grouping `HashMap<String, OfferLifecycle>` of `build_lifecycle_data`,
modelled as an association list kept in insertion order. -/
abbrev LifecycleMap := List (String × OfferLifecycle)

/-- Lookup by key in the lifecycle map. -/
def mapLookup (k : String) : LifecycleMap → Option OfferLifecycle
  | [] => none
  | (k2, v) :: rest => if k2 = k then some v else mapLookup k rest

/-- Replace the value stored under a present key (in-place mutation of a
`HashMap` entry). -/
def mapReplace (k : String) (v : OfferLifecycle) : LifecycleMap → LifecycleMap
  | [] => []
  | (k2, v2) :: rest =>
      if k2 = k then (k2, v) :: rest else (k2, v2) :: mapReplace k v rest

/-- One iteration of the `for offer in offers` loop of
`build_lifecycle_data`: `entry(offer.id).or_insert_with(initLifecycle)`
followed by the in-place mutation `updateLifecycle`. -/
def applyOffer (m : LifecycleMap) (offer : Offer) : LifecycleMap :=
  match mapLookup offer.id m with
  | some e => mapReplace offer.id (updateLifecycle e offer) m
  | none => m ++ [(offer.id, updateLifecycle (initLifecycle offer) offer)]

/-- Rust `build_lifecycle_data` from `src/analyzer/lifecycle.rs`: fold the batch
into the grouping map, then `into_values`.  (`HashMap::into_values` has an
unspecified order; insertion order is used here, and every property proved
about the result is order-insensitive.)  The `async` marker on the source
function is a scheduling concession with no suspension point, so the
function is embedded as a pure one. -/
def build_lifecycle_data (offers : List Offer) : List OfferLifecycle :=
  (offers.foldl applyOffer []).map Prod.snd

/-- Sum of the `price_changes` counters over a built batch. -/
def totalPriceChanges (offers : List Offer) : ℕ :=
  ((build_lifecycle_data offers).map OfferLifecycle.price_changes).sum

/-- The `PriceRange(pub u32, pub u32)` tuple struct from `src/analyzer/market_indicators.rs`;
the two `u32` bounds are modelled as naturals (always < 2³²  by
construction in `get_price_range_with_step`). -/
structure PriceRange where
  lower : ℕ
  upper : ℕ
deriving DecidableEq

/-- The modulus of `u32` arithmetic, 2³². -/
def U32_MOD : ℕ := 2 ^ 32

/-- Rust `f64::round`: round half away from zero. -/
def f64_round (q : ℚ) : ℤ := if 0 ≤ q then ⌊q + 1/2⌋ else ⌈q - 1/2⌉

/-- Rust `as u32` cast from `f64`: truncate toward zero and saturate to
`[0, 2³²-1]` (NaN goes to 0; not reachable here since prices are modelled
as finite).  Here it is applied to the already-integral result of
`round`. -/
def f64_as_u32 (z : ℤ) : ℕ := if z < 0 then 0 else min z.toNat (U32_MOD - 1)

/-- Constant `MarketAnalyzer::DEFAULT_STEP` = 50. -/
def DEFAULT_STEP : ℕ := 50

/-- Rust `MarketAnalyzer::get_price_range_with_step`: round the price, cast to
`u32`, floor to a multiple of `step`.  Caveats of the source kept by the
model: `price_int / step` is `u32` division (Rust panics when `step = 0`;
the Lean totalization returns `lower = 0` there), and `lower + step` is
`u32` addition (wraps modulo 2³² in release builds). -/
def get_price_range_with_step (price : ℚ) (step : ℕ) : PriceRange :=
  let price_int : ℕ := f64_as_u32 (f64_round price)
  let lower : ℕ := price_int / step * step
  { lower := lower, upper := (lower + step) % U32_MOD }

/-- Rust `MarketAnalyzer::get_price_range`: the default-step bucketing. -/
def get_price_range (price : ℚ) : PriceRange :=
  get_price_range_with_step price DEFAULT_STEP

/-- The `gains`/`losses` accumulation loop of `MarketAnalyzer::compute_rsi`:
`windows(2)` is the list of consecutive pairs, i.e. `zip l l.tail`. -/
def rsi_gains_losses (avg_prices : List ℚ) : ℚ × ℚ :=
  (avg_prices.zip avg_prices.tail).foldl
    (fun gl w =>
      let delta := w.2 - w.1
      if delta > 0 then (gl.1 + delta, gl.2) else (gl.1, gl.2 - delta))
    (0, 0)

/-- Rust `MarketAnalyzer::compute_rsi` from `src/analyzer/market_indicators.rs`. -/
def compute_rsi (avg_prices : List ℚ) : ℚ :=
  if avg_prices.length < 2 then 0
  else
    let gl := rsi_gains_losses avg_prices
    if gl.1 + gl.2 = 0 then 50
    else
      let rs := gl.1 / max gl.2 (1 / 1000000)
      100 - 100 / (1 + rs)

/-- Rust `slice::windows(n)` (for `n > 0`): all contiguous subslices of
length `n`, empty when the slice is shorter than `n`. -/
def listWindows (n : ℕ) (l : List ℚ) : List (List ℚ) :=
  (List.range (l.length + 1 - n)).map (fun i => (l.drop i).take n)

/-- Rust `MarketAnalyzer::moving_average` from
`src/analyzer/market_indicators.rs`. -/
def moving_average (data : List ℚ) (window_size : ℕ) : List ℚ :=
  if window_size = 0 || data.length < window_size then []
  else (listWindows window_size data).map (fun w => w.sum / (window_size : ℚ))

/-- The radicand of `compute_correlation`'s denominator:
`denominator_x * denominator_y`, the product of the sums of squared
deviations.  The Rust `denominator = sqrt(denominator_x * denominator_y)`
is zero exactly when this product is zero (the product is a product of sums
of squares, hence nonnegative). -/
def corr_denominator_sq (x y : List ℚ) : ℚ :=
  let n : ℚ := x.length
  let mean_x := x.sum / n
  let mean_y := y.sum / n
  ((x.map (fun xi => (xi - mean_x) ^ 2)).sum) *
    ((y.map (fun yi => (yi - mean_y) ^ 2)).sum)

/-- Rust `MarketAnalyzer::compute_correlation` from
`src/analyzer/market_indicators.rs`.  The Rust function returns
`Some(numerator / sqrt(denominator_sq))`; a square root of a rational is
irrational in general, so the embedding returns the exact pair
`(numerator, denominator_sq)` that determines the coefficient.  The
`None`/`Some` structure — all this file proves about the function — is
unchanged. -/
def compute_correlation (x y : List ℚ) : Option (ℚ × ℚ) :=
  if (x.length != y.length) || x.isEmpty then none
  else
    let n : ℚ := x.length
    let mean_x := x.sum / n
    let mean_y := y.sum / n
    let numerator := ((x.zip y).map (fun p => (p.1 - mean_x) * (p.2 - mean_y))).sum
    if corr_denominator_sq x y = 0 then none
    else some (numerator, corr_denominator_sq x y)

/-- The `AnalysisResult` record from `src/analyzer/price_analysis.rs`; the duration
maps carry `chrono::Duration` values modelled as integers (seconds), and
each `HashMap` is an association list. -/
structure AnalysisResult where
  disappearance_map : List (PriceRange × ℤ)
  price_change_frequency : ℚ
  rsi : ℚ
  volatility_map : List (PriceRange × ℚ)
  lifespan_median : List (PriceRange × ℤ)

/-- Lookup in a `HashMap<PriceRange, f64>` association list
(`analysis.volatility_map.get(&range)`). -/
def rangeLookup (r : PriceRange) : List (PriceRange × ℚ) → Option ℚ
  | [] => none
  | (r2, v) :: rest => if r2 = r then some v else rangeLookup r rest

/-- `AnalyzerImpl::find_deals_expanded` from
`src/analyzer/price_analysis.rs`: the same bounds check and base condition
as `find_deals`, plus a volatility cut — an offer whose price bucket has a
recorded volatility above the hard-coded threshold 20.0 is skipped; a
bucket absent from the map imposes no cut. -/
def find_deals_expanded (offers : List Offer) (stats : ModelStats)
    (cfg : ModelConfig) (analysis : AnalysisResult) : List Offer :=
  let volatility_threshold : ℚ := 20
  offers.filter (fun offer =>
    if flt (some offer.price) (some cfg.min_price) ||
       fgt (some offer.price) (some cfg.max_price) then
      false
    else
      let base_condition :=
        flt (some offer.price) (fmul stats.avg_price (some (1 - cfg.deviation_threshold))) ||
        fge (fsub stats.avg_price (some offer.price)) (some cfg.min_price_delta)
      if !base_condition then false
      else
        match rangeLookup (get_price_range_with_step offer.price DEFAULT_STEP)
                analysis.volatility_map with
        | some volatility => !(decide (volatility > volatility_threshold))
        | none => true)

/-- The three-listing scenario batch: prices 100, 100, 80. -/
def offersC2 : List Offer := [mkOffer "a" 100 0, mkOffer "b" 100 0, mkOffer "c" 80 0]

/-- The listing priced 80 in the scenario batch. -/
def offerC2_80 : Offer := mkOffer "c" 80 0

/-- The scenario configuration: threshold 0.15, delta 15, bounds [0, 1000]. -/
def cfgC2 : ModelConfig :=
  { query := "q", category_id := "c", deviation_threshold := 15/100
    min_price_delta := 15, min_price := 0, max_price := 1000, match_keywords := [] }

/-- First observation of identity X, price 50. -/
def oX1 : Offer := mkOffer "X" 50 0

/-- Second observation of identity X, price 55. -/
def oX2 : Offer := mkOffer "X" 55 10

/-- Third observation of identity X, price 50 again. -/
def oX3 : Offer := mkOffer "X" 50 20

/-- The key list of the grouping map. -/
def mapKeys (m : LifecycleMap) : List String := m.map Prod.fst

/-- The contribution of one stored record to the total change count. -/
def changesOf : Option OfferLifecycle → ℕ
  | some e => e.price_changes
  | none => 0

/-- C1: evaluation of `calculate_stats` at batches with zero positive prices.
The source performs no emptiness check: both the mean and the variance are
`0.0 / 0.0`, i.e. NaN (`none`), and the function returns a `ModelStats`
normally instead of signalling an explicit failure. -/
theorem calculate_stats_silent_nan_on_no_positive :
    (calculate_stats [mkOffer "a" (-1) 0]).avg_price = none ∧
    (calculate_stats [mkOffer "a" (-1) 0]).var_price = none ∧
    (calculate_stats []).avg_price = none ∧
    (calculate_stats []).var_price = none := by
  refine ⟨?_, ?_, ?_, ?_⟩ <;> decide

/-- C2 counterexample: on the batch [100, 100, 80] with threshold 0.15 and
delta 15, `find_deals` returns the empty list — in particular not the
singleton of the listing priced 80 (mean − 80 = 40/3 < 15 and
80 ≥ 0.85 · mean = 238/3). -/
theorem find_deals_scenario_returns_nothing :
    find_deals offersC2 (calculate_stats offersC2) cfgC2 = [] ∧
    find_deals offersC2 (calculate_stats offersC2) cfgC2 ≠ [offerC2_80] := by
  have h : find_deals offersC2 (calculate_stats offersC2) cfgC2 = [] := by
    simp [find_deals, calculate_stats, offersC2, cfgC2, mkOffer, fdiv, fadd, fsub, fmul,
      flt, fgt, fge, List.filter]
    norm_num
  exact ⟨h, by simp [h]⟩

/-- C2 amended: on the batch [100, 100, 80] the mean is 280/3 (≈ 93.33,
within 0.01) and the population variance is 800/9, whose square root lies
in (9.42, 9.43), i.e. the standard deviation is ≈ 9.43; but `find_deals`
with threshold 0.15 and delta 15 returns no deals at all: the listing at 80
fails both conditions (mean − 80 = 40/3 < 15, and 80 ≥ 0.85 · mean), and so
do the two at 100. -/
theorem calculate_stats_scenario_amended :
    (calculate_stats offersC2).avg_price = some (280/3) ∧
    |(280/3 : ℚ) - 9333/100| < 1/100 ∧
    (calculate_stats offersC2).var_price = some (800/9) ∧
    (942/100 : ℚ)^2 < 800/9 ∧ (800/9 : ℚ) < (943/100)^2 ∧
    find_deals offersC2 (calculate_stats offersC2) cfgC2 = [] := by
  refine ⟨?_, by rw [abs_lt]; norm_num, ?_, by norm_num, by norm_num, ?_⟩
  · simp [calculate_stats, offersC2, mkOffer, fdiv, fadd, fsub, fmul, List.filter]
    norm_num
  · simp [calculate_stats, offersC2, mkOffer, fdiv, fadd, fsub, fmul, List.filter]
    norm_num
  · simp [find_deals, calculate_stats, offersC2, cfgC2, mkOffer, fdiv, fadd, fsub, fmul,
      flt, fgt, fge, List.filter]
    norm_num

/-- C7: `compute_correlation` returns `none` precisely when the lengths
differ, the inputs are empty, or the product of the sums of squared
deviations is exactly zero; otherwise it returns a value. -/
theorem compute_correlation_none_iff (x y : List ℚ) :
    compute_correlation x y = none ↔
      x.length ≠ y.length ∨ x = [] ∨ corr_denominator_sq x y = 0 := by
  unfold compute_correlation
  by_cases h1 : x.length = y.length
  · by_cases h2 : x = []
    · simp [h1, h2]
    · by_cases h3 : corr_denominator_sq x y = 0 <;>
        simp [h1, h2, h3, List.isEmpty_iff]
  · simp [h1, List.isEmpty_iff]

lemma rsi_loop_nonneg (ws : List (ℚ × ℚ)) (g h : ℚ) (hg : 0 ≤ g) (hh : 0 ≤ h) :
    0 ≤ (ws.foldl (fun gl w =>
        let delta := w.2 - w.1
        if delta > 0 then (gl.1 + delta, gl.2) else (gl.1, gl.2 - delta)) (g, h)).1 ∧
    0 ≤ (ws.foldl (fun gl w =>
        let delta := w.2 - w.1
        if delta > 0 then (gl.1 + delta, gl.2) else (gl.1, gl.2 - delta)) (g, h)).2 := by
  induction ws generalizing g h with
  | nil => exact ⟨hg, hh⟩
  | cons a t ih =>
      simp only [List.foldl_cons]
      by_cases hd : a.2 - a.1 > 0
      · simpa [hd] using ih (g + (a.2 - a.1)) h (by linarith) hh
      · simpa [hd] using ih g (h - (a.2 - a.1)) hg (by linarith)

lemma rsi_gains_losses_nonneg (l : List ℚ) :
    0 ≤ (rsi_gains_losses l).1 ∧ 0 ≤ (rsi_gains_losses l).2 := by
  unfold rsi_gains_losses
  exact rsi_loop_nonneg _ 0 0 le_rfl le_rfl

/-- C6: `compute_rsi` is bounded in [0, 100] on any series of length ≥ 2,
returns exactly 50 when the accumulated gains and losses sum to zero (flat
series), and returns 0 on series of fewer than 2 points. -/
theorem compute_rsi_spec (l : List ℚ) :
    (2 ≤ l.length → 0 ≤ compute_rsi l ∧ compute_rsi l ≤ 100) ∧
    (2 ≤ l.length → (rsi_gains_losses l).1 + (rsi_gains_losses l).2 = 0 →
      compute_rsi l = 50) ∧
    (l.length < 2 → compute_rsi l = 0) := by
  obtain ⟨hg, hh⟩ := rsi_gains_losses_nonneg l
  refine ⟨?_, ?_, ?_⟩
  · intro hlen
    simp only [compute_rsi]
    rw [if_neg (by omega)]
    by_cases h0 : (rsi_gains_losses l).1 + (rsi_gains_losses l).2 = 0
    · rw [if_pos h0]; norm_num
    · rw [if_neg h0]
      have hmax : (0:ℚ) < max (rsi_gains_losses l).2 (1/1000000) :=
        lt_of_lt_of_le (by norm_num) (le_max_right _ _)
      have hrs : 0 ≤ (rsi_gains_losses l).1 / max (rsi_gains_losses l).2 (1/1000000) :=
        div_nonneg hg (le_of_lt hmax)
      constructor
      · have hds : 100 / (1 + (rsi_gains_losses l).1 / max (rsi_gains_losses l).2 (1/1000000)) ≤ 100 :=
          div_le_self (by norm_num) (by linarith)
        linarith
      · have hdn : 0 ≤ 100 / (1 + (rsi_gains_losses l).1 / max (rsi_gains_losses l).2 (1/1000000)) := by
          positivity
        linarith
  · intro hlen h0
    simp only [compute_rsi]
    rw [if_neg (by omega), if_pos h0]
  · intro hlen
    simp only [compute_rsi]
    rw [if_pos hlen]

/-- Witness for C6 at concrete series. -/
theorem compute_rsi_spec_witness :
    (0 ≤ compute_rsi [10, 12] ∧ compute_rsi [10, 12] ≤ 100) ∧
    compute_rsi [10, 10, 10] = 50 ∧ compute_rsi [10] = 0 := by
  refine ⟨(compute_rsi_spec [10, 12]).1 (by norm_num),
          (compute_rsi_spec [10, 10, 10]).2.1 (by norm_num) ?_,
          (compute_rsi_spec [10]).2.2 (by norm_num)⟩
  simp [rsi_gains_losses]

/-- C8: `moving_average` is empty when the window is 0 or longer than the
data; otherwise its length is `data.length - window + 1` and its i-th entry
is the arithmetic mean of the i-th window. -/
theorem moving_average_spec (data : List ℚ) (w : ℕ) :
    (w = 0 ∨ data.length < w → moving_average data w = []) ∧
    (0 < w → w ≤ data.length →
      (moving_average data w).length = data.length - w + 1) ∧
    (∀ i, 0 < w → i < data.length + 1 - w →
      (moving_average data w)[i]? = some (((data.drop i).take w).sum / (w : ℚ))) := by
  refine ⟨?_, ?_, ?_⟩
  · rintro (h | h) <;> simp [moving_average, h]
  · intro hw hlen
    rw [moving_average, if_neg (by simp; omega)]
    simp [listWindows]
    omega
  · intro i hw hi
    have hlen : w ≤ data.length := by omega
    rw [moving_average, if_neg (by simp; omega)]
    rw [listWindows]
    rw [List.getElem?_map, List.getElem?_map, List.getElem?_range]
    · rfl
    · exact hi

/-- Witness for C8 at concrete data. -/
theorem moving_average_spec_witness :
    moving_average [] 0 = [] ∧
    (moving_average [(1:ℚ), 2, 3, 4] 2).length = 4 - 2 + 1 ∧
    (moving_average [(1:ℚ), 2, 3, 4] 2)[0]?
      = some ((([(1:ℚ), 2, 3, 4].drop 0).take 2).sum / (2 : ℚ)) :=
  ⟨(moving_average_spec [] 0).1 (Or.inl rfl),
   (moving_average_spec [(1:ℚ), 2, 3, 4] 2).2.1 (by norm_num) (by norm_num),
   (moving_average_spec [(1:ℚ), 2, 3, 4] 2).2.2 0 (by norm_num) (by norm_num)⟩

lemma f64_round_nonneg (price : ℚ) (h : 0 ≤ price) : 0 ≤ f64_round price := by
  rw [f64_round, if_pos h]
  exact Int.le_floor.mpr (by push_cast; linarith)

/-- C5 amended: for a price that rounds into `u32` range (`0 ≤ price` and
`round(price) + step < 2³²`) and a positive step,
`get_price_range_with_step` returns the half-open bucket
`[⌊round(price)/step⌋·step, lower + step)`, which contains `round(price)`
and has width `step`; in particular the bucket of (123.4, 50) is
[100, 150). -/
theorem get_price_range_with_step_spec (price : ℚ) (step : ℕ)
    (hstep : 0 < step) (hprice : 0 ≤ price)
    (hbound : f64_round price + (step : ℤ) < (U32_MOD : ℤ)) :
    ((get_price_range_with_step price step).lower : ℤ) ≤ f64_round price ∧
    f64_round price < ((get_price_range_with_step price step).upper : ℤ) ∧
    (get_price_range_with_step price step).upper
      - (get_price_range_with_step price step).lower = step ∧
    ((get_price_range_with_step price step).lower : ℤ)
      = ⌊(f64_round price : ℚ) / (step : ℚ)⌋ * step ∧
    get_price_range_with_step (1234/10) 50 = ⟨100, 150⟩ := by
  have hr0 : 0 ≤ f64_round price := f64_round_nonneg price hprice
  have hrU : f64_round price < (U32_MOD : ℤ) := by omega
  have hcast : ((f64_round price).toNat : ℤ) = f64_round price := Int.toNat_of_nonneg hr0
  have hint : f64_as_u32 (f64_round price) = (f64_round price).toNat := by
    rw [f64_as_u32, if_neg (by omega)]
    exact Nat.min_eq_left (by omega)
  set a := (f64_round price).toNat with ha
  have hdm := Nat.div_add_mod a step
  have hml : a % step < step := Nat.mod_lt a hstep
  have hlow : a / step * step = step * (a / step) := Nat.mul_comm _ _
  have h1 : a / step * step ≤ a := Nat.div_mul_le_self a step
  have h2 : a < a / step * step + step := by
    rw [hlow]
    omega
  have haU : (a : ℤ) + step < U32_MOD := by omega
  have hmod : (a / step * step + step) % U32_MOD = a / step * step + step :=
    Nat.mod_eq_of_lt (by omega)
  have hscen : get_price_range_with_step (1234/10) 50 = ⟨100, 150⟩ := by
    have hr : f64_round (1234/10) = 123 := by
      rw [f64_round, if_pos (by norm_num)]
      rw [Int.floor_eq_iff]
      constructor <;> norm_num
    rw [get_price_range_with_step, hr]
    rfl
  refine ⟨?_, ?_, ?_, ?_, hscen⟩
  · show ((f64_as_u32 (f64_round price) / step * step : ℕ) : ℤ) ≤ f64_round price
    rw [hint]
    omega
  · show f64_round price < (((f64_as_u32 (f64_round price) / step * step + step) % U32_MOD : ℕ) : ℤ)
    rw [hint, hmod]
    omega
  · show (f64_as_u32 (f64_round price) / step * step + step) % U32_MOD
        - f64_as_u32 (f64_round price) / step * step = step
    rw [hint, hmod]
    omega
  · show ((f64_as_u32 (f64_round price) / step * step : ℕ) : ℤ)
        = ⌊(f64_round price : ℚ) / (step : ℚ)⌋ * step
    rw [hint]
    have hq : ((f64_round price : ℤ) : ℚ) = ((a : ℕ) : ℚ) := by
      rw [← hcast]
      push_cast
      ring
    rw [hq]
    have hfl : ⌊((a : ℕ) : ℚ) / (step : ℚ)⌋ = ((a / step : ℕ) : ℤ) := by
      rw [← Nat.floor_div_eq_div (α := ℚ) a step]
      exact (Int.natCast_floor_eq_floor (by positivity)).symm
    rw [hfl]
    push_cast
    ring

/-- C5 counterexample: at price −10 and step 50 the `as u32` cast saturates
to 0, so the computed bucket is [0, 50): its lower bound is neither
`⌊round(−10)/50⌋·50 = −50` nor ≤ `round(−10) = −10`. -/
theorem get_price_range_neg_price_counterexample :
    ¬ (((get_price_range_with_step (-10) 50).lower : ℤ) ≤ f64_round (-10)) ∧
    ((get_price_range_with_step (-10) 50).lower : ℤ)
      ≠ ⌊(f64_round (-10) : ℚ) / (50 : ℚ)⌋ * 50 := by
  have hr : f64_round (-10) = -10 := by
    rw [f64_round, if_neg (by norm_num)]
    rw [Int.ceil_eq_iff]
    constructor <;> norm_num
  have hlow : (get_price_range_with_step (-10) 50).lower = 0 := by
    rw [get_price_range_with_step, hr]
    rfl
  have hfl : ⌊((-10 : ℤ) : ℚ) / (50 : ℚ)⌋ = -1 := by
    rw [Int.floor_eq_iff]
    constructor <;> norm_num
  rw [hlow, hr, hfl]
  norm_num

/-- Witness for C5 at price 123.4, step 50. -/
theorem get_price_range_with_step_spec_witness :
    ((get_price_range_with_step (1234/10) 50).lower : ℤ) ≤ f64_round (1234/10) ∧
    f64_round (1234/10) < ((get_price_range_with_step (1234/10) 50).upper : ℤ) ∧
    (get_price_range_with_step (1234/10) 50).upper
      - (get_price_range_with_step (1234/10) 50).lower = 50 ∧
    get_price_range_with_step (1234/10) 50 = ⟨100, 150⟩ := by
  obtain ⟨h1, h2, h3, _, h5⟩ :=
    get_price_range_with_step_spec (1234/10) 50 (by norm_num) (by norm_num)
      (by
        have hr : f64_round (1234/10) = 123 := by
          rw [f64_round, if_pos (by norm_num)]
          rw [Int.floor_eq_iff]
          constructor <;> norm_num
        rw [hr, U32_MOD]
        norm_num)
  exact ⟨h1, h2, h3, h5⟩

lemma mapLookup_mem (k : String) (m : LifecycleMap) {e : OfferLifecycle}
    (h : mapLookup k m = some e) : (k, e) ∈ m := by
  induction m with
  | nil => simp [mapLookup] at h
  | cons kv t ih =>
      rw [mapLookup] at h
      by_cases hk : kv.1 = k
      · rw [if_pos hk] at h
        obtain ⟨k1, v1⟩ := kv
        simp only [Option.some.injEq] at h
        simp only at hk
        subst hk
        subst h
        exact List.mem_cons_self _ _
      · rw [if_neg hk] at h
        exact List.mem_cons_of_mem _ (ih h)

lemma mem_mapReplace (k : String) (v : OfferLifecycle) (m : LifecycleMap)
    {kv : String × OfferLifecycle} (h : kv ∈ mapReplace k v m) :
    kv ∈ m ∨ kv = (k, v) := by
  induction m with
  | nil => simp [mapReplace] at h
  | cons kv2 t ih =>
      rw [mapReplace] at h
      by_cases hk : kv2.1 = k
      · rw [if_pos hk] at h
        rcases List.mem_cons.mp h with h1 | h1
        · right
          rw [h1, hk]
        · exact Or.inl (List.mem_cons_of_mem _ h1)
      · rw [if_neg hk] at h
        rcases List.mem_cons.mp h with h1 | h1
        · exact Or.inl (h1 ▸ List.mem_cons_self _ _)
        · rcases ih h1 with h2 | h2
          · exact Or.inl (List.mem_cons_of_mem _ h2)
          · exact Or.inr h2

lemma updateLifecycle_changed (e : OfferLifecycle) (o : Offer)
    (h : |o.price - e.price| > f64_EPSILON) :
    (updateLifecycle e o).price_changes = e.price_changes + 1 ∧
    (updateLifecycle e o).price = o.price := by
  rw [updateLifecycle]
  simp only [if_pos h]
  split_ifs <;> simp

lemma updateLifecycle_unchanged (e : OfferLifecycle) (o : Offer)
    (h : ¬ |o.price - e.price| > f64_EPSILON) :
    (updateLifecycle e o).price_changes = e.price_changes ∧
    (updateLifecycle e o).price = e.price := by
  rw [updateLifecycle]
  simp only [if_neg h]
  split_ifs <;> simp

/-- Every record produced by folding `applyOffer` satisfies a property `P`
preserved by `updateLifecycle` (under a per-offer side condition `Q`) and
established on freshly inserted entries. -/
lemma foldl_applyOffer_invariant (P : OfferLifecycle → Prop) (Q : Offer → Prop)
    (hupd : ∀ e o, Q o → P e → P (updateLifecycle e o))
    (hinit : ∀ o, Q o → P (updateLifecycle (initLifecycle o) o)) :
    ∀ (l : List Offer), (∀ o ∈ l, Q o) → ∀ (m : LifecycleMap),
      (∀ kv ∈ m, P kv.2) → ∀ kv ∈ l.foldl applyOffer m, P kv.2 := by
  intro l
  induction l with
  | nil => intro _ m hm kv hkv; exact hm kv hkv
  | cons o t ih =>
      intro hl m hm kv hkv
      simp only [List.foldl_cons] at hkv
      refine ih (fun x hx => hl x (List.mem_cons_of_mem _ hx)) _ ?_ kv hkv
      intro kv2 hkv2
      have hQ : Q o := hl o (List.mem_cons_self o t)
      rw [applyOffer] at hkv2
      cases hlk : mapLookup o.id m with
      | some e =>
          rw [hlk] at hkv2
          rcases mem_mapReplace _ _ _ hkv2 with h | h
          · exact hm _ h
          · rw [h]
            exact hupd e o hQ (hm _ (mapLookup_mem _ _ hlk))
      | none =>
          rw [hlk] at hkv2
          rcases List.mem_append.mp hkv2 with h | h
          · exact hm _ h
          · simp only [List.mem_singleton] at h
            rw [h]
            exact hinit o hQ

/-- C4: `price_changes` increments (and the stored price is replaced)
exactly when the newly observed price differs from the stored one by more
than `f64::EPSILON`; a batch of observations of one identity all at one
price yields records with `price_changes = 0`. -/
theorem lifecycle_price_change_spec :
    (∀ (e : OfferLifecycle) (o : Offer),
      (f64_EPSILON < |o.price - e.price| →
        (updateLifecycle e o).price_changes = e.price_changes + 1 ∧
        (updateLifecycle e o).price = o.price) ∧
      (¬ f64_EPSILON < |o.price - e.price| →
        (updateLifecycle e o).price_changes = e.price_changes ∧
        (updateLifecycle e o).price = e.price)) ∧
    (∀ (l : List Offer) (i : String) (p : ℚ),
      (∀ o ∈ l, o.id = i ∧ o.price = p) →
      ∀ r ∈ build_lifecycle_data l, r.price_changes = 0) := by
  constructor
  · intro e o
    exact ⟨fun h => updateLifecycle_changed e o h, fun h => updateLifecycle_unchanged e o h⟩
  · intro l i p hl r hr
    rw [build_lifecycle_data] at hr
    obtain ⟨kv, hkv, hsnd⟩ := List.mem_map.mp hr
    have key : ∀ kv2 ∈ l.foldl applyOffer [], kv2.2.price = p ∧ kv2.2.price_changes = 0 := by
      refine foldl_applyOffer_invariant
        (fun e => e.price = p ∧ e.price_changes = 0)
        (fun o => o.id = i ∧ o.price = p)
        ?_ ?_ l hl [] (by simp)
      · intro e o hQ hP
        have hnc : ¬ |o.price - e.price| > f64_EPSILON := by
          rw [hQ.2, hP.1]
          simp [f64_EPSILON]
        obtain ⟨h1, h2⟩ := updateLifecycle_unchanged e o hnc
        exact ⟨h2.trans hP.1, h1.trans hP.2⟩
      · intro o hQ
        have hnc : ¬ |o.price - (initLifecycle o).price| > f64_EPSILON := by
          rw [initLifecycle]
          simp [f64_EPSILON]
        obtain ⟨h1, h2⟩ := updateLifecycle_unchanged (initLifecycle o) o hnc
        rw [initLifecycle] at h1 h2
        exact ⟨h2.trans hQ.2, h1⟩
    rw [← hsnd]
    exact (key kv hkv).2

/-- Witness for C4: a > ε move increments the counter, an exact repeat does
not, and a two-observation same-price batch yields `price_changes = 0`. -/
theorem lifecycle_price_change_spec_witness :
    (updateLifecycle ⟨50, 0, 0, 0⟩ (mkOffer "X" 55 1)).price_changes = 0 + 1 ∧
    (updateLifecycle ⟨50, 0, 0, 0⟩ (mkOffer "X" 50 1)).price_changes = 0 ∧
    (⟨50, 0, 10, 0⟩ : OfferLifecycle) ∈
      build_lifecycle_data [mkOffer "X" 50 0, mkOffer "X" 50 10] ∧
    (⟨50, 0, 10, 0⟩ : OfferLifecycle).price_changes = 0 := by
  have hmem : (⟨50, 0, 10, 0⟩ : OfferLifecycle) ∈
      build_lifecycle_data [mkOffer "X" 50 0, mkOffer "X" 50 10] := by
    simp [build_lifecycle_data, applyOffer, mapLookup, mapReplace, updateLifecycle,
      initLifecycle, mkOffer, f64_EPSILON]
    norm_num
  refine ⟨((lifecycle_price_change_spec.1 ⟨50, 0, 0, 0⟩ (mkOffer "X" 55 1)).1 ?_).1,
          ((lifecycle_price_change_spec.1 ⟨50, 0, 0, 0⟩ (mkOffer "X" 50 1)).2 ?_).1,
          hmem,
          lifecycle_price_change_spec.2 [mkOffer "X" 50 0, mkOffer "X" 50 10] "X" 50
            (by simp [mkOffer]) _ hmem⟩
  · show f64_EPSILON < |(mkOffer "X" 55 1).price - (50 : ℚ)|
    rw [mkOffer, f64_EPSILON]
    norm_num
  · show ¬ f64_EPSILON < |(mkOffer "X" 50 1).price - (50 : ℚ)|
    rw [mkOffer, f64_EPSILON]
    norm_num

lemma updateLifecycle_window (e : OfferLifecycle) (o : Offer)
    (h : e.first_seen ≤ e.last_seen) :
    (updateLifecycle e o).first_seen ≤ (updateLifecycle e o).last_seen := by
  rw [updateLifecycle]
  split_ifs <;> simp_all

/-- C9: every record built from a batch satisfies
`first_seen ≤ last_seen`. -/
theorem build_lifecycle_first_le_last (offers : List Offer) :
    ∀ r ∈ build_lifecycle_data offers, r.first_seen ≤ r.last_seen := by
  intro r hr
  rw [build_lifecycle_data] at hr
  obtain ⟨kv, hkv, hsnd⟩ := List.mem_map.mp hr
  have key : ∀ kv2 ∈ offers.foldl applyOffer [],
      kv2.2.first_seen ≤ kv2.2.last_seen := by
    refine foldl_applyOffer_invariant
      (fun e => e.first_seen ≤ e.last_seen) (fun _ => True)
      ?_ ?_ offers (by simp) [] (by simp)
    · intro e o _ hP
      exact updateLifecycle_window e o hP
    · intro o _
      exact updateLifecycle_window (initLifecycle o) o (by rw [initLifecycle])
  rw [← hsnd]
  exact key kv hkv

/-- Witness for C9 at a two-observation batch. -/
theorem build_lifecycle_first_le_last_witness :
    (⟨50, 0, 10, 0⟩ : OfferLifecycle) ∈
      build_lifecycle_data [mkOffer "Y" 50 10, mkOffer "Y" 50 0] ∧
    (⟨50, 0, 10, 0⟩ : OfferLifecycle).first_seen
      ≤ (⟨50, 0, 10, 0⟩ : OfferLifecycle).last_seen := by
  have hmem : (⟨50, 0, 10, 0⟩ : OfferLifecycle) ∈
      build_lifecycle_data [mkOffer "Y" 50 10, mkOffer "Y" 50 0] := by
    simp [build_lifecycle_data, applyOffer, mapLookup, mapReplace, updateLifecycle,
      initLifecycle, mkOffer, f64_EPSILON]
    norm_num
  exact ⟨hmem, build_lifecycle_first_le_last _ _ hmem⟩

lemma mapLookup_append_of_none (s : String) (m1 m2 : LifecycleMap)
    (h : mapLookup s m1 = none) : mapLookup s (m1 ++ m2) = mapLookup s m2 := by
  induction m1 with
  | nil => rfl
  | cons kv t ih =>
      rw [mapLookup] at h
      by_cases hk : kv.1 = s
      · rw [if_pos hk] at h
        exact absurd h (by simp)
      · rw [if_neg hk] at h
        rw [List.cons_append, mapLookup, if_neg hk]
        exact ih h

lemma mapLookup_append_of_some (s : String) (m1 m2 : LifecycleMap)
    {v : OfferLifecycle} (h : mapLookup s m1 = some v) :
    mapLookup s (m1 ++ m2) = some v := by
  induction m1 with
  | nil => simp [mapLookup] at h
  | cons kv t ih =>
      rw [mapLookup] at h
      by_cases hk : kv.1 = s
      · rw [if_pos hk] at h
        rw [List.cons_append, mapLookup, if_pos hk]
        exact h
      · rw [if_neg hk] at h
        rw [List.cons_append, mapLookup, if_neg hk]
        exact ih h

lemma mapLookup_replace_self (k : String) (v : OfferLifecycle) (m : LifecycleMap)
    {e : OfferLifecycle} (h : mapLookup k m = some e) :
    mapLookup k (mapReplace k v m) = some v := by
  induction m with
  | nil => simp [mapLookup] at h
  | cons kv t ih =>
      rw [mapLookup] at h
      rw [mapReplace]
      by_cases hk : kv.1 = k
      · rw [if_pos hk, mapLookup, if_pos hk]
      · rw [if_neg hk] at h
        rw [if_neg hk, mapLookup, if_neg hk]
        exact ih h

lemma mapLookup_replace_ne (k s : String) (v : OfferLifecycle) (m : LifecycleMap)
    (h : s ≠ k) : mapLookup s (mapReplace k v m) = mapLookup s m := by
  induction m with
  | nil => rfl
  | cons kv t ih =>
      rw [mapReplace]
      by_cases hk : kv.1 = k
      · rw [if_pos hk, mapLookup, mapLookup]
        rw [if_neg (by rw [hk]; exact fun hh => h hh.symm),
            if_neg (by rw [hk]; exact fun hh => h hh.symm)]
      · rw [if_neg hk, mapLookup, mapLookup]
        by_cases hs : kv.1 = s
        · rw [if_pos hs, if_pos hs]
        · rw [if_neg hs, if_neg hs]
          exact ih

/-- One loop iteration, seen through the lens of a single key `s`. -/
lemma lookup_applyOffer (m : LifecycleMap) (o : Offer) (s : String) :
    mapLookup s (applyOffer m o) =
      if o.id = s then
        some (updateLifecycle ((mapLookup s m).getD (initLifecycle o)) o)
      else mapLookup s m := by
  rw [applyOffer]
  cases hlk : mapLookup o.id m with
  | none =>
      by_cases hs : o.id = s
      · subst hs
        rw [if_pos rfl, mapLookup_append_of_none _ _ _ hlk, hlk]
        simp [mapLookup]
      · rw [if_neg hs]
        cases hsm : mapLookup s m with
        | none =>
            rw [mapLookup_append_of_none _ _ _ hsm]
            simp [mapLookup, hs]
        | some w => exact mapLookup_append_of_some _ _ _ hsm
  | some e =>
      by_cases hs : o.id = s
      · subst hs
        rw [if_pos rfl, hlk]
        exact mapLookup_replace_self _ _ _ hlk
      · rw [if_neg hs]
        exact mapLookup_replace_ne _ _ _ _ (fun h => hs h.symm)

/-- Folding a batch, seen through the lens of a single key `s`: only the
subsequence of offers with id `s` matters, processed in order. -/
lemma lookup_foldl (l : List Offer) (s : String) : ∀ m : LifecycleMap,
    mapLookup s (l.foldl applyOffer m) =
      (l.filter (fun o => o.id == s)).foldl
        (fun acc o => some (updateLifecycle (acc.getD (initLifecycle o)) o))
        (mapLookup s m) := by
  induction l with
  | nil => intro m; rfl
  | cons o t ih =>
      intro m
      rw [List.foldl_cons, ih, lookup_applyOffer]
      by_cases hs : o.id = s
      · rw [if_pos hs, List.filter_cons, if_pos (by simp [hs]), List.foldl_cons]
      · rw [if_neg hs, List.filter_cons, if_neg (by simp [hs])]

lemma foldl_step_from_some (fl : List Offer) : ∀ e : OfferLifecycle,
    fl.foldl (fun acc o => some (updateLifecycle (acc.getD (initLifecycle o)) o))
      (some e) ≠ none := by
  induction fl with
  | nil => intro e h; exact absurd h (by simp)
  | cons a t ih =>
      intro e
      rw [List.foldl_cons]
      exact ih _

lemma foldl_step_none_iff (fl : List Offer) :
    fl.foldl (fun acc o => some (updateLifecycle (acc.getD (initLifecycle o)) o))
      none = none ↔ fl = [] := by
  cases fl with
  | nil => simp
  | cons a t =>
      rw [List.foldl_cons]
      constructor
      · intro h
        exact absurd h (foldl_step_from_some t _)
      · intro h
        exact absurd h (List.cons_ne_nil a t)


lemma keys_mapReplace (k : String) (v : OfferLifecycle) (m : LifecycleMap) :
    mapKeys (mapReplace k v m) = mapKeys m := by
  induction m with
  | nil => rfl
  | cons kv t ih =>
      rw [mapReplace]
      by_cases hk : kv.1 = k
      · rw [if_pos hk]
        simp [mapKeys, hk]
      · rw [if_neg hk]
        have ih2 : List.map Prod.fst (mapReplace k v t) = List.map Prod.fst t := by
          simpa [mapKeys] using ih
        simp [mapKeys, ih2]

lemma mapLookup_eq_none_iff (s : String) (m : LifecycleMap) :
    mapLookup s m = none ↔ s ∉ mapKeys m := by
  induction m with
  | nil => simp [mapLookup, mapKeys]
  | cons kv t ih =>
      rw [mapLookup]
      by_cases hk : kv.1 = s
      · rw [if_pos hk]
        simp [mapKeys, hk]
      · rw [if_neg hk]
        have hks : s ≠ kv.1 := fun hh => hk hh.symm
        simp [mapKeys, ih, hks]

lemma keys_applyOffer (m : LifecycleMap) (o : Offer) :
    mapKeys (applyOffer m o) =
      match mapLookup o.id m with
      | some _ => mapKeys m
      | none => mapKeys m ++ [o.id] := by
  rw [applyOffer]
  cases hlk : mapLookup o.id m with
  | some e => exact keys_mapReplace _ _ _
  | none => simp [mapKeys]

lemma nodup_keys_foldl (l : List Offer) : ∀ m : LifecycleMap,
    (mapKeys m).Nodup → (mapKeys (l.foldl applyOffer m)).Nodup := by
  induction l with
  | nil => intro m hm; exact hm
  | cons o t ih =>
      intro m hm
      rw [List.foldl_cons]
      refine ih _ ?_
      rw [keys_applyOffer]
      cases hlk : mapLookup o.id m with
      | some e => exact hm
      | none =>
          have hni : o.id ∉ mapKeys m := (mapLookup_eq_none_iff _ _).mp hlk
          simp [List.nodup_append, hm, hni]


lemma sum_over_keys (m : LifecycleMap) (h : (mapKeys m).Nodup) :
    (m.map (fun kv => kv.2.price_changes)).sum
      = ((mapKeys m).map (fun s => changesOf (mapLookup s m))).sum := by
  induction m with
  | nil => rfl
  | cons kv t ih =>
      obtain ⟨k1, v1⟩ := kv
      have hnd : k1 ∉ mapKeys t ∧ (mapKeys t).Nodup := by
        simpa [mapKeys] using List.nodup_cons.mp h
      simp only [mapKeys, List.map_cons, List.sum_cons]
      have hhead : mapLookup k1 ((k1, v1) :: t) = some v1 := by
        rw [mapLookup, if_pos rfl]
      have htail : ((t.map Prod.fst).map (fun s => changesOf (mapLookup s ((k1, v1) :: t)))).sum
          = ((t.map Prod.fst).map (fun s => changesOf (mapLookup s t))).sum := by
        congr 1
        refine List.map_congr_left ?_
        intro s hs
        have hne : k1 ≠ s := fun hh => hnd.1 (hh ▸ hs)
        rw [mapLookup, if_neg hne]
      rw [htail, hhead]
      rw [show (t.map Prod.fst) = mapKeys t from rfl, ← ih hnd.2]
      rfl

lemma mem_keys_iff_lookup (s : String) (m : LifecycleMap) :
    s ∈ mapKeys m ↔ ¬ mapLookup s m = none := by
  rw [mapLookup_eq_none_iff]
  tauto

/-- C3 amended: the total of `price_changes` over a built batch is
invariant under any reordering of the batch that preserves the relative
order of the observations of each identity (the per-identity filtered
subsequences coincide). -/
theorem totalPriceChanges_order_invariant (l1 l2 : List Offer)
    (h : ∀ s : String,
      l1.filter (fun o => o.id == s) = l2.filter (fun o => o.id == s)) :
    totalPriceChanges l1 = totalPriceChanges l2 := by
  have hlk : ∀ s, mapLookup s (l1.foldl applyOffer [])
      = mapLookup s (l2.foldl applyOffer []) := by
    intro s
    rw [lookup_foldl, lookup_foldl, h s]
  have hnd1 : (mapKeys (l1.foldl applyOffer [])).Nodup :=
    nodup_keys_foldl l1 [] (by simp [mapKeys])
  have hnd2 : (mapKeys (l2.foldl applyOffer [])).Nodup :=
    nodup_keys_foldl l2 [] (by simp [mapKeys])
  have hmem : ∀ s, s ∈ mapKeys (l1.foldl applyOffer [])
      ↔ s ∈ mapKeys (l2.foldl applyOffer []) := by
    intro s
    rw [mem_keys_iff_lookup, mem_keys_iff_lookup, hlk s]
  have hperm : (mapKeys (l1.foldl applyOffer [])).Perm
      (mapKeys (l2.foldl applyOffer [])) :=
    (List.perm_ext_iff_of_nodup hnd1 hnd2).mpr hmem
  have ht : ∀ l : List Offer, totalPriceChanges l
      = ((l.foldl applyOffer []).map (fun kv => kv.2.price_changes)).sum := by
    intro l
    rw [totalPriceChanges, build_lifecycle_data, List.map_map]
    rfl
  rw [ht, ht, sum_over_keys _ hnd1, sum_over_keys _ hnd2]
  have hcg : (mapKeys (l1.foldl applyOffer [])).map
        (fun s => changesOf (mapLookup s (l1.foldl applyOffer [])))
      = (mapKeys (l1.foldl applyOffer [])).map
        (fun s => changesOf (mapLookup s (l2.foldl applyOffer []))) :=
    List.map_congr_left (fun s _ => by rw [hlk s])
  rw [hcg]
  exact (hperm.map _).sum_eq

/-- C3 counterexample: feeding the three same-identity observations in the
order 50, 55, 50 counts two price changes, while the permuted order
50, 50, 55 counts one — the sum of `price_changes` is not invariant under
permutations of same-identity observations. -/
theorem totalPriceChanges_perm_counterexample :
    totalPriceChanges [oX1, oX2, oX3] = 2 ∧
    totalPriceChanges [oX1, oX3, oX2] = 1 ∧
    List.Perm [oX1, oX2, oX3] [oX1, oX3, oX2] := by
  refine ⟨?_, ?_, List.Perm.cons oX1 (List.Perm.swap oX3 oX2 [])⟩
  · norm_num [totalPriceChanges, build_lifecycle_data, applyOffer, mapLookup, mapReplace,
      updateLifecycle, initLifecycle, oX1, oX2, oX3, mkOffer, f64_EPSILON]
  · norm_num [totalPriceChanges, build_lifecycle_data, applyOffer, mapLookup, mapReplace,
      updateLifecycle, initLifecycle, oX1, oX2, oX3, mkOffer, f64_EPSILON]

/-- Witness for the amended C3: swapping observations of two distinct
identities leaves the total unchanged. -/
theorem totalPriceChanges_order_invariant_witness :
    totalPriceChanges [mkOffer "A" 50 0, mkOffer "B" 70 0]
      = totalPriceChanges [mkOffer "B" 70 0, mkOffer "A" 50 0] := by
  apply totalPriceChanges_order_invariant
  intro s
  by_cases hA : ("A" : String) = s <;> by_cases hB : ("B" : String) = s
  · exact absurd (hA.trans hB.symm) (by decide)
  · simp [List.filter_cons, mkOffer, hA, hB]
  · simp [List.filter_cons, mkOffer, hA, hB]
  · simp [List.filter_cons, mkOffer, hA, hB]

/-- C10: every offer kept by `find_deals_expanded` is kept by `find_deals`
on the same inputs (the volatility policy only removes candidates), and an
offer accepted by `find_deals` whose price bucket is absent from the
volatility map is also kept by `find_deals_expanded`. -/
theorem find_deals_expanded_subset (offers : List Offer) (stats : ModelStats)
    (cfg : ModelConfig) (analysis : AnalysisResult) :
    (∀ o ∈ find_deals_expanded offers stats cfg analysis,
      o ∈ find_deals offers stats cfg) ∧
    (∀ o ∈ find_deals offers stats cfg,
      rangeLookup (get_price_range_with_step o.price DEFAULT_STEP)
          analysis.volatility_map = none →
      o ∈ find_deals_expanded offers stats cfg analysis) := by
  constructor
  · intro o ho
    simp only [find_deals_expanded, List.mem_filter] at ho
    simp only [find_deals, List.mem_filter]
    obtain ⟨hmem, hp⟩ := ho
    refine ⟨hmem, ?_⟩
    by_cases hA : (flt (some o.price) (some cfg.min_price) ||
        fgt (some o.price) (some cfg.max_price)) = true
    · rw [if_pos hA] at hp
      exact absurd hp (by simp)
    · rw [if_neg hA] at hp
      rw [if_neg hA]
      by_cases hUV : (flt (some o.price)
            (fmul stats.avg_price (some (1 - cfg.deviation_threshold))) ||
          fge (fsub stats.avg_price (some o.price)) (some cfg.min_price_delta)) = true
      · exact hUV
      · rw [if_pos (by simp [hUV])] at hp
        exact absurd hp (by simp)
  · intro o ho hnone
    simp only [find_deals, List.mem_filter] at ho
    simp only [find_deals_expanded, List.mem_filter]
    obtain ⟨hmem, hp⟩ := ho
    refine ⟨hmem, ?_⟩
    by_cases hA : (flt (some o.price) (some cfg.min_price) ||
        fgt (some o.price) (some cfg.max_price)) = true
    · rw [if_pos hA] at hp
      exact absurd hp (by simp)
    · rw [if_neg hA] at hp
      rw [if_neg hA]
      rw [if_neg (by simp [hp])]
      rw [hnone]

/-- Witness for C10: a concrete deal flows through both filters when its
bucket is absent from the volatility map. -/
theorem find_deals_expanded_subset_witness :
    mkOffer "w" 50 0 ∈ find_deals_expanded [mkOffer "w" 50 0]
      ⟨"m", some 100, some 0⟩ cfgC2 ⟨[], 0, 0, [], []⟩ ∧
    mkOffer "w" 50 0 ∈ find_deals [mkOffer "w" 50 0] ⟨"m", some 100, some 0⟩ cfgC2 := by
  have hbase : mkOffer "w" 50 0 ∈ find_deals [mkOffer "w" 50 0]
      ⟨"m", some 100, some 0⟩ cfgC2 := by
    simp [find_deals, mkOffer, cfgC2, flt, fgt, fge, fmul, fsub, List.filter]
    norm_num
  have hexp := (find_deals_expanded_subset [mkOffer "w" 50 0]
      ⟨"m", some 100, some 0⟩ cfgC2 ⟨[], 0, 0, [], []⟩).2 (mkOffer "w" 50 0) hbase rfl
  exact ⟨hexp, (find_deals_expanded_subset [mkOffer "w" 50 0]
      ⟨"m", some 100, some 0⟩ cfgC2 ⟨[], 0, 0, [], []⟩).1 (mkOffer "w" 50 0) hexp⟩

end KleinSniper
